import Mathlib

/-!
Shallow embedding of the PJM zone-wise load dashboard pipeline (src/app.py).

Numeric cell values are modelled as `Option ℚ`: `none` stands for a
missing value (pandas `NaN`), `some q` for the float `q`.  Timestamps of
the in-memory dataset are naturals, measured in minutes since the epoch;
all six resample granularities of the app (`5T`, `15T`, `30T`, `1H`,
`6H`, `1D`) divide a day evenly, so pandas' bucket alignment to the start
of the first day coincides with alignment to the epoch, i.e. with flooring
the timestamp to a multiple of the rule width.

The raw-table loader (`load_data`) is embedded separately: raw cells are
an inductive type (date-like, numeric, or plain text), and `pd.to_datetime`
on a single cell is modelled by `parseCell` (date-like text and numbers
parse, other text does not), with parsed instants in `ℤ`.
-/

namespace PJM

/-- a cell value of the numeric table: `none` models pandas `NaN`. -/
abbrev Value := Option ℚ

/-- one record of the time-indexed view: a timestamp (minutes since epoch)
paired with the list of zone values, parallel to the list of zone names. -/
abbrev Row := ℕ × List Value

/-! ### Time-window filtering (src/app.py lines 75–76) -/

/-- the boolean mask `(df["timestamp"] >= start) & (df["timestamp"] <= end)`
applied through `df.loc[mask]`: keep exactly the rows whose timestamp lies
in the inclusive window. -/
def filterWindow (s e : ℕ) (rows : List Row) : List Row :=
  rows.filter (fun r => decide (s ≤ r.1) && decide (r.1 ≤ e))

/-! ### Resampling (src/app.py line 79) -/

/-- the resample granularities offered in the sidebar. -/
inductive ResampleRule | t5 | t15 | t30 | h1 | h6 | d1
deriving DecidableEq

/-- bucket width of a rule, in minutes. -/
def ResampleRule.width : ResampleRule → ℕ
  | .t5 => 5
  | .t15 => 15
  | .t30 => 30
  | .h1 => 60
  | .h6 => 360
  | .d1 => 1440

/-- start of the width-`w` bucket containing instant `t` (floor to a
multiple of `w`). -/
def bucketOf (w t : ℕ) : ℕ := t / w * w

/-- smallest timestamp of a row list (`0` if empty; only used on nonempty
input). -/
def tsMin (rows : List Row) : ℕ := ((rows.map Prod.fst).min?).getD 0

/-- largest timestamp of a row list (`0` if empty). -/
def tsMax (rows : List Row) : ℕ := ((rows.map Prod.fst).max?).getD 0

/-- arithmetic mean of a list of rationals, `none` on the empty list:
the value pandas' NaN-skipping `mean` assigns to one bucket/column pair. -/
def optMean (xs : List ℚ) : Value :=
  if xs = [] then none else some (xs.sum / xs.length)

/-- present (non-missing) values of column `j` among the rows falling in
the bucket starting at `b`. -/
def presentIn (w b j : ℕ) (rows : List Row) : List ℚ :=
  rows.filterMap (fun r => if bucketOf w r.1 = b then r.2.getD j none else none)

/-- per-column NaN-skipping means of the bucket starting at `b`, over
`n` columns. -/
def meansRow (w b n : ℕ) (rows : List Row) : List Value :=
  (List.range n).map (fun j => optMean (presentIn w b j rows))

/-- bucket starts emitted by `resample`: every multiple of `w` from the
first record's bucket to the last record's bucket, inclusive — pandas
emits a row for every bucket in that span, empty buckets included. -/
def bucketStarts (w : ℕ) (rows : List Row) : List ℕ :=
  match rows with
  | [] => []
  | _ :: _ =>
    let b0 := bucketOf w (tsMin rows)
    let b1 := bucketOf w (tsMax rows)
    (List.range ((b1 - b0) / w + 1)).map (fun i => b0 + i * w)

/-- `view.set_index("timestamp").resample(rule).mean(numeric_only=True)`:
one output row per bucket start in the covered span, holding the
NaN-skipping per-column means of the records in that bucket. -/
def resample (w n : ℕ) (rows : List Row) : List Row :=
  (bucketStarts w rows).map (fun b => (b, meansRow w b n rows))

/-! ### KPI target selection (src/app.py lines 95–103) -/

/-- value of column `z` (looked up by name among `cols`) in row `r`. -/
def colVal (cols : List String) (z : String) (r : Row) : Value :=
  r.2.getD (cols.indexOf z) none

/-- the series `df_view[z]`: one value per row, for the named column. -/
def colSeries (cols : List String) (z : String) (rows : List Row) : List Value :=
  rows.map (colVal cols z)

/-- `df_view[zs].sum(axis=1)` on one row: pandas sums with `skipna=True`
and `min_count=0`, so every missing value contributes `0` and the result
is always an actual number — in particular `0` on an all-missing row. -/
def rowSumOver (cols : List String) (zs : List String) (r : Row) : ℚ :=
  (zs.map (fun z => (colVal cols z r).getD 0)).sum

/-- the series `df_view[zs].sum(axis=1)`. -/
def sumSeries (cols zs : List String) (rows : List Row) : List Value :=
  rows.map (fun r => some (rowSumOver cols zs r))

/-- `series_for_kpis`: the `pjm_rto` column if present, else the
element-wise sum over the selected zones if any, else the element-wise
sum over all numeric columns. -/
def series_for_kpis (cols selected : List String) (rows : List Row) : List Value :=
  if "pjm_rto" ∈ cols then colSeries cols "pjm_rto" rows
  else if selected ≠ [] then sumSeries cols selected rows
  else sumSeries cols cols rows

/-! ### KPI computation (src/app.py lines 105–114) -/

/-- present (non-missing) values of a series. -/
def presentVals (t : List Value) : List ℚ := t.filterMap id

/-- `target.max()`: NaN-skipping maximum, `NaN` when no value is present. -/
def seriesMax (t : List Value) : Value := (presentVals t).max?

/-- `target.min()`: NaN-skipping minimum, `NaN` when no value is present. -/
def seriesMin (t : List Value) : Value := (presentVals t).min?

/-- `target.mean()`: NaN-skipping mean, `NaN` when no value is present. -/
def seriesMean (t : List Value) : Value := optMean (presentVals t)

/-- percent change from first to last entry: `pct` stays `NaN` unless the
series has at least two entries and its first entry is not the number `0`
(a missing first entry passes that test, as `NaN != 0` holds in Python,
and then propagates through the arithmetic to a `NaN` result). -/
def pctChange (t : List Value) : Value :=
  match t with
  | [] => none
  | v0 :: _ =>
    if 2 ≤ t.length ∧ v0 ≠ some 0 then
      match v0, t.getLast? with
      | some a, some (some b) => some ((b - a) / |a| * 100)
      | _, _ => none
    else none

/-- the four KPI cards, rendered only when the target series is nonempty. -/
structure KPISet where
  peak : Value
  trough : Value
  mean : Value
  pct : Value
deriving DecidableEq

/-- KPI block guarded by `if not target.empty`: no KPI set at all for an
empty target series. -/
def kpiSet (t : List Value) : Option KPISet :=
  if t = [] then none
  else some ⟨seriesMax t, seriesMin t, seriesMean t, pctChange t⟩

/-! ### Grouping target (src/app.py lines 166–170 and 180–183) -/

/-- the single named zone used by the daily-average and hourly-pattern
charts: `pjm_rto` if present, else the first selected zone, else the first
numeric column (`none` models the out-of-bounds access when both lists
are empty). -/
def ycolFor (cols selected : List String) : Option String :=
  if "pjm_rto" ∈ cols then some "pjm_rto"
  else match selected with
    | z :: _ => some z
    | [] => cols.head?

/-! ### Ranked zone means (src/app.py lines 146–151) -/

/-- NaN-skipping mean of column `j` over all rows of the view. -/
def colMean (rows : List Row) (j : ℕ) : Value :=
  optMean (rows.filterMap (fun r => r.2.getD j none))

/-- `view[numeric_cols].mean(numeric_only=True)`: one (zone, mean) pair
per numeric column, in column order. -/
def zoneMeansOf (cols : List String) (rows : List Row) : List (String × Value) :=
  (List.range cols.length).map (fun j => (cols.getD j "", colMean rows j))

/-- descending order on values with missing values last: the order
`sort_values(ascending=False)` produces (`na_position="last"`). -/
def descLE (a b : Value) : Bool :=
  match a, b with
  | some x, some y => decide (y ≤ x)
  | some _, none => true
  | none, some _ => false
  | none, none => true

/-- `zone_means`: per-zone means over the resampled view, sorted by value
descending. -/
def rankedZoneMeans (cols : List String) (rows : List Row) : List (String × Value) :=
  (zoneMeansOf cols rows).mergeSort (fun a b => descLE a.2 b.2)

/-! ### One dashboard run

The per-request computation takes the dataset, the sidebar parameters
(window bounds, selected zones, resample rule) and produces the resampled
view and the derived structures.  `runRanked` takes the zone selection as
an argument because the run does, even though lines 146–151 never read it. -/

/-- the resampled, time-filtered view of the dataset. -/
def runView (cols : List String) (rows : List Row) (s e : ℕ)
    (rule : ResampleRule) : List Row :=
  resample rule.width cols.length (filterWindow s e rows)

/-- the ranked (zone, average) list of one run, as handed to the
top/bottom bar charts. -/
def runRanked (cols : List String) (rows : List Row) (s e : ℕ)
    (rule : ResampleRule) (selected : List String) : List (String × Value) :=
  rankedZoneMeans cols (runView cols rows s e rule)

/-! ### Loading and timestamp resolution (src/app.py lines 14–34)

Raw cells of the spreadsheet are date-like text (carrying the instant they
denote, in `ℤ`), numbers, or other text; `pd.to_datetime` on one cell is
modelled by `parseCell`: date-like text parses to its instant, a number
parses as an offset from the epoch (floored to our integral time scale),
other text fails. -/

/-- one raw spreadsheet cell. -/
inductive Cell
  | time (t : ℤ)
  | num (q : ℚ)
  | text (s : String)
deriving DecidableEq

/-- `pd.to_datetime` applied to one cell. -/
def parseCell : Cell → Option ℤ
  | .time t => some t
  | .num q => some ⌊q⌋
  | .text _ => none

/-- the raw table: named columns, in spreadsheet order, each with its
list of cell values. -/
abbrev Table := List (String × List Cell)

/-- whether `needle` starts `hay` (character lists). -/
def startsWith : List Char → List Char → Bool
  | _, [] => true
  | [], _ :: _ => false
  | h :: ht, n :: nt => h == n && startsWith ht nt

/-- whether `needle` occurs as a contiguous substring of `hay`, the
semantics of Python's `needle in hay` on strings (case-sensitive). -/
def subOccurs : List Char → List Char → Bool
  | [], needle => needle.isEmpty
  | h :: t, needle => startsWith (h :: t) needle || subOccurs t needle

/-- `needle in hay` for strings. -/
def strContains (hay needle : String) : Bool :=
  subOccurs hay.toList needle.toList

/-- the name test of line 19: `"interval" in c and "start" in c and
"local" in c` — all three substrings, matched case-sensitively. -/
def nameMatches (c : String) : Bool :=
  strContains c "interval" && strContains c "start" && strContains c "local"

/-- whether `pd.to_datetime(df[c])` succeeds, i.e. every cell of the
column parses. -/
def colParses (c : String × List Cell) : Bool :=
  c.2.all (fun v => (parseCell v).isSome)

/-- `time_col_candidates`: the columns whose name matches; when none
does, the columns whose values all parse as date/times, in column order. -/
def timeColCandidates (tbl : Table) : List String :=
  if ((tbl.map Prod.fst).filter nameMatches).isEmpty
  then (tbl.filter colParses).map Prod.fst
  else (tbl.map Prod.fst).filter nameMatches

/-- `time_col`: the first candidate, or the first column when there is no
candidate at all (`none` only for a table without columns). -/
def chosenTimeCol (tbl : Table) : Option String :=
  match timeColCandidates tbl with
  | n :: _ => some n
  | [] => (tbl.map Prod.fst).head?

/-- records of the loaded dataset, before sorting: each row's parsed
timestamp paired with its original row index (`df["timestamp"] =
pd.to_datetime(df[time_col])`, which raises — modelled as `none` — when
the chosen column does not fully parse). -/
def parsedRecords (tbl : Table) : Option (List (ℤ × ℕ)) :=
  match chosenTimeCol tbl with
  | none => none
  | some n =>
    match tbl.find? (fun c => c.1 == n) with
    | none => none
    | some col =>
      (col.2.mapM parseCell).map (fun ts => ts.enum.map (fun p => (p.2, p.1)))

/-- `load_data`: resolve the timestamp column, parse it, and sort the
records ascending by parsed timestamp (`df.sort_values("timestamp")`). -/
def load_data (tbl : Table) : Option (List (ℤ × ℕ)) :=
  (parsedRecords tbl).map
    (fun recs => recs.mergeSort (fun a b => decide (a.1 ≤ b.1)))

/-! ### Helper lemmas -/

/-- a dataset (or view) is time-sorted when its rows are pairwise
non-decreasing in timestamp — the invariant `df.sort_values("timestamp")`
establishes at load time. -/
def TsSorted (rows : List Row) : Prop :=
  List.Pairwise (fun a b : Row => a.1 ≤ b.1) rows

lemma getD_map_range {β : Type} (f : ℕ → β) (d : β) {j n : ℕ} (hj : j < n) :
    (((List.range n).map f).getD j d) = f j := by
  rw [List.getD_eq_getElem?_getD, List.getElem?_map, List.getElem?_range hj]
  rfl

lemma filterMap_if_filter {α β : Type} (p : α → Bool) (f : α → Option β)
    (l : List α) :
    l.filterMap (fun a => if p a then f a else none)
      = (l.filter p).filterMap f := by
  induction l with
  | nil => rfl
  | cons a t ih =>
    by_cases hp : p a
    · rw [List.filter_cons_of_pos hp, List.filterMap_cons, List.filterMap_cons,
        if_pos hp, ih]
    · rw [List.filter_cons_of_neg (by simpa using hp), List.filterMap_cons,
        if_neg hp, ih]

lemma filterWindow_eq_takeWhile (s e : ℕ) (l : List Row)
    (hall : ∀ x ∈ l, s ≤ x.1) (hsort : TsSorted l) :
    filterWindow s e l = l.takeWhile (fun r => decide (r.1 ≤ e)) := by
  induction l with
  | nil => rfl
  | cons b m ih =>
    rw [TsSorted, List.pairwise_cons] at hsort
    by_cases hb : b.1 ≤ e
    · have hsb : s ≤ b.1 := hall b (List.mem_cons_self b m)
      rw [filterWindow, List.filter_cons_of_pos (by simp [hsb, hb]),
        List.takeWhile_cons_of_pos (by simp [hb])]
      exact congrArg (b :: ·)
        (ih (fun x hx => hall x (List.mem_cons_of_mem b hx)) hsort.2)
    · rw [filterWindow, List.filter_cons_of_neg (by simp [hb]),
        List.takeWhile_cons_of_neg (by simp [hb])]
      rw [List.filter_eq_nil_iff]
      intro x hx
      have : b.1 ≤ x.1 := hsort.1 x hx
      simp only [Bool.and_eq_true, decide_eq_true_eq]
      omega

lemma filterWindow_chunk (s e : ℕ) (l : List Row) (hsort : TsSorted l) :
    ∃ u v, l = u ++ filterWindow s e l ++ v := by
  induction l with
  | nil => exact ⟨[], [], rfl⟩
  | cons a m ih =>
    have hs := hsort
    rw [TsSorted, List.pairwise_cons] at hs
    by_cases hp : s ≤ a.1 ∧ a.1 ≤ e
    · have hm : filterWindow s e m = m.takeWhile (fun r => decide (r.1 ≤ e)) :=
        filterWindow_eq_takeWhile s e m
          (fun x hx => le_trans hp.1 (hs.1 x hx)) hs.2
      refine ⟨[], m.dropWhile (fun r => decide (r.1 ≤ e)), ?_⟩
      rw [filterWindow, List.filter_cons_of_pos (by simp [hp.1, hp.2]),
        ← filterWindow, hm]
      simp [List.takeWhile_append_dropWhile]
    · rcases ih hs.2 with ⟨u, v, huv⟩
      refine ⟨a :: u, v, ?_⟩
      rw [filterWindow, List.filter_cons_of_neg ?_, ← filterWindow]
      · simpa using huv
      · simp only [Bool.and_eq_true, decide_eq_true_eq]
        omega

end PJM

namespace PJM

/-! ### Claim theorems -/

/-- C4: for every time-sorted dataset and every window with `s ≤ e`, the
time-window filter keeps exactly the records with `s ≤ timestamp ≤ e`
(both boundaries included, nothing outside retained), the result is a
contiguous chunk of the dataset and is itself time-sorted; an empty
result is a legitimate value of the same shape. -/
theorem timeWindowFilter_spec (s e : ℕ) (rows : List Row)
    (hsort : TsSorted rows) (hse : s ≤ e) :
    (∀ r ∈ filterWindow s e rows, s ≤ r.1 ∧ r.1 ≤ e) ∧
    (∀ r ∈ rows, s ≤ r.1 → r.1 ≤ e → r ∈ filterWindow s e rows) ∧
    (∃ u v, rows = u ++ filterWindow s e rows ++ v) ∧
    TsSorted (filterWindow s e rows) := by
  refine ⟨?_, ?_, filterWindow_chunk s e rows hsort, ?_⟩
  · intro r hr
    rw [filterWindow, List.mem_filter] at hr
    simpa using hr.2
  · intro r hr h1 h2
    rw [filterWindow, List.mem_filter]
    exact ⟨hr, by simp [h1, h2]⟩
  · exact List.Pairwise.sublist (List.filter_sublist rows) hsort

/-- C4 witness: the spec instantiated on a concrete sorted three-row
dataset and the window `[10, 20]`. -/
theorem timeWindowFilter_spec_witness :
    (10, ([some 2] : List Value))
      ∈ filterWindow 10 20 [(5, [some 1]), (10, [some 2]), (25, [some 3])] :=
  (timeWindowFilter_spec 10 20 [(5, [some 1]), (10, [some 2]), (25, [some 3])]
    (by constructor <;> simp) (by omega)).2.1
    (10, [some 2]) (by simp) (by omega) (by omega)

/-- C2: the KPI target is the `pjm_rto` column whenever that zone exists,
regardless of the selection; otherwise the element-wise sum over the
selected zones when the selection is nonempty; otherwise the element-wise
sum over all zones.  In particular, on a dataset whose zones are the
system total `pjm_rto` together with `east` and `west`, selecting only
`east` still targets the total column, not `east`'s. -/
theorem series_for_kpis_priority (cols selected : List String) (rows : List Row) :
    ("pjm_rto" ∈ cols →
      series_for_kpis cols selected rows = colSeries cols "pjm_rto" rows) ∧
    ("pjm_rto" ∉ cols → selected ≠ [] →
      series_for_kpis cols selected rows = sumSeries cols selected rows) ∧
    ("pjm_rto" ∉ cols → selected = [] →
      series_for_kpis cols selected rows = sumSeries cols cols rows) ∧
    (series_for_kpis ["pjm_rto", "east", "west"] ["east"]
        [(0, [some 10, some 2, some 3])] = [some 10] ∧
      colSeries ["pjm_rto", "east", "west"] "east"
        [(0, [some 10, some 2, some 3])] = [some 2]) := by
  refine ⟨?_, ?_, ?_, by decide, by decide⟩
  · intro h; rw [series_for_kpis, if_pos h]
  · intro h hne; rw [series_for_kpis, if_neg h, if_pos hne]
  · intro h hnil; rw [series_for_kpis, if_neg h, if_neg (by simp [hnil])]

/-- C2 witness: on zones `{pjm_rto, east, west}` with selection `[east]`,
priority 1 applies. -/
theorem series_for_kpis_priority_witness :
    series_for_kpis ["pjm_rto", "east", "west"] ["east"]
        [(0, [some 10, some 2, some 3])]
      = colSeries ["pjm_rto", "east", "west"] "pjm_rto"
        [(0, [some 10, some 2, some 3])] :=
  (series_for_kpis_priority ["pjm_rto", "east", "west"] ["east"]
    [(0, [some 10, some 2, some 3])]).1 (by decide)

/-- unfolding equation for `pctChange` on a nonempty series. -/
lemma pctChange_cons (v0 : Value) (rest : List Value) :
    pctChange (v0 :: rest)
      = if 2 ≤ (v0 :: rest).length ∧ v0 ≠ some 0 then
          match v0, (v0 :: rest).getLast? with
          | some a, some (some b) => some ((b - a) / |a| * 100)
          | _, _ => none
        else none := rfl

/-- C5: the percent-change KPI equals `(last − first) / |first| × 100`
exactly when the (numeric) target series has at least two points and a
non-zero first value; otherwise it is the explicit missing marker.  An
empty target series produces no KPI set at all, while a nonempty one
produces a KPI set that always carries the percent-change field. -/
theorem kpiSet_pct_spec (t : List ℚ) :
    (kpiSet [] = none) ∧
    (∀ a b, t.head? = some a → t.getLast? = some b → 2 ≤ t.length → a ≠ 0 →
      pctChange (t.map some) = some ((b - a) / |a| * 100)) ∧
    (t.length < 2 ∨ t.head? = some 0 → pctChange (t.map some) = none) ∧
    (t ≠ [] → ∃ k, kpiSet (t.map some) = some k ∧ k.pct = pctChange (t.map some)) := by
  refine ⟨by simp [kpiSet], ?_, ?_, ?_⟩
  · intro a b ha hb hlen ha0
    cases t with
    | nil => simp at ha
    | cons x t' =>
      have hx : x = a := by simpa using ha
      subst hx
      have hlast : (List.map some (x :: t')).getLast? = some (some b) := by
        rw [List.getLast?_map, hb]; rfl
      rw [List.map_cons, pctChange_cons,
        if_pos ⟨by simpa using hlen, by simpa using ha0⟩, ← List.map_cons, hlast]
  · intro h
    rcases h with hlen | hzero
    · match t, hlen with
      | [], _ => rfl
      | [x], _ => rw [List.map_cons, pctChange_cons, if_neg (by simp)]
    · cases t with
      | nil => rfl
      | cons x t' =>
        have hx : x = 0 := by simpa using hzero
        subst hx
        rw [List.map_cons, pctChange_cons, if_neg (by simp)]
  · intro h
    refine ⟨⟨seriesMax (t.map some), seriesMin (t.map some),
      seriesMean (t.map some), pctChange (t.map some)⟩, ?_, rfl⟩
    rw [kpiSet, if_neg (by simpa using h)]

/-- C5 witness: the ramp `[100, 150]` has percent change
`(150 − 100) / |100| × 100`. -/
theorem kpiSet_pct_spec_witness :
    pctChange (([100, 150] : List ℚ).map some)
      = some ((150 - 100) / |(100 : ℚ)| * 100) :=
  (kpiSet_pct_spec [100, 150]).2.1 100 150 rfl rfl (by decide) (by norm_num)

lemma descLE_trans (a b c : Value) (hab : descLE a b) (hbc : descLE b c) :
    descLE a c := by
  rcases a with _ | x <;> rcases b with _ | y <;> rcases c with _ | z <;>
    simp [descLE] at * <;> exact le_trans hbc hab

lemma descLE_total (a b : Value) : descLE a b || descLE b a := by
  rcases a with _ | x <;> rcases b with _ | y <;> simp [descLE]
  exact le_total y x

/-- C10: the ranked (zone, average) list handed to the top/bottom charts
is computed over all zones of the dataset and never reads the zone
selection: two runs over the same dataset, window and rule that differ
only in the selected-zones subset produce the identical ranked list.
That list is sorted descending by value (missing means last) and is a
permutation of the per-zone means of the resampled view. -/
theorem runRanked_selection_independent (cols : List String) (rows : List Row)
    (s e : ℕ) (rule : ResampleRule) (sel1 sel2 : List String) :
    runRanked cols rows s e rule sel1 = runRanked cols rows s e rule sel2 ∧
    List.Pairwise (fun a b : String × Value => descLE a.2 b.2 = true)
      (runRanked cols rows s e rule sel1) ∧
    (runRanked cols rows s e rule sel1).Perm
      (zoneMeansOf cols (runView cols rows s e rule)) :=
  ⟨rfl,
    List.sorted_mergeSort
      (fun a b c => descLE_trans a.2 b.2 c.2)
      (fun a b => descLE_total a.2 b.2) _,
    List.mergeSort_perm _ _⟩

/-- C9: when the system-total zone is absent and the selection is
nonempty, the KPI target assigns the actual number `0` — not a missing
value — to every row whose selected-zone values are all missing; on the
concrete two-record dataset with zone `east`, all present values of which
are positive, the hour-resampled window `[0, 120]` contains an empty
bucket and the reported trough is `0`. -/
theorem kpi_target_zero_on_all_missing (cols sel : List String)
    (rows : List Row) (r : Row) (h1 : "pjm_rto" ∉ cols) (h2 : sel ≠ [])
    (hr : r ∈ rows) (hmiss : ∀ z ∈ sel, colVal cols z r = none) :
    some 0 ∈ series_for_kpis cols sel rows ∧
    (∃ k, kpiSet (series_for_kpis ["east"] ["east"]
          (runView ["east"] [(0, [some 100]), (120, [some 120])] 0 120 .h1))
        = some k ∧ k.trough = some 0) ∧
    (∀ p ∈ [((0 : ℕ), [some (100 : ℚ)]), (120, [some 120])],
      ∀ v ∈ p.2, ∀ q, v = some q → 0 < q) := by
  refine ⟨?_, ?_, by decide⟩
  · rw [series_for_kpis, if_neg h1, if_pos h2, sumSeries]
    have hz : rowSumOver cols sel r = 0 := by
      rw [rowSumOver]
      apply List.sum_eq_zero
      intro x hx
      rcases List.mem_map.mp hx with ⟨z, hzmem, hzeq⟩
      rw [← hzeq, hmiss z hzmem]
      rfl
    exact List.mem_map.mpr ⟨r, hr, by rw [hz]⟩
  · have hview : runView ["east"] [(0, [some 100]), (120, [some 120])] 0 120 .h1
        = [(0, [some 100]), (60, [none]), (120, [some 120])] := by
      norm_num [runView, ResampleRule.width, resample, bucketStarts, tsMin,
        tsMax, bucketOf, meansRow, presentIn, optMean, filterWindow,
        List.range_succ, List.filterMap_cons]
    have hseries : series_for_kpis ["east"] ["east"]
        [(0, [some 100]), (60, [none]), (120, [some 120])]
        = [some 100, some 0, some 120] := by
      rw [series_for_kpis, if_neg (by decide), if_pos (by decide)]
      norm_num [sumSeries, rowSumOver, colVal, List.indexOf_cons]
    rw [hview, hseries]
    exact ⟨⟨seriesMax [some 100, some 0, some 120],
      seriesMin [some 100, some 0, some 120],
      seriesMean [some 100, some 0, some 120],
      pctChange [some 100, some 0, some 120]⟩,
      by rw [kpiSet, if_neg (by decide)], by decide⟩

/-- C9 witness: a dataset without `pjm_rto` whose single record misses the
single selected zone gets KPI target value `0`. -/
theorem kpi_target_zero_on_all_missing_witness :
    some 0 ∈ series_for_kpis ["east"] ["east"] [(0, [none])] :=
  (kpi_target_zero_on_all_missing ["east"] ["east"] [(0, [none])] (0, [none])
    (by decide) (by decide) (by simp) (by decide)).1

/-! ### Bucket arithmetic -/

lemma width_pos (rule : ResampleRule) : 0 < rule.width := by
  cases rule <;> simp [ResampleRule.width]

lemma bucketOf_dvd (w t : ℕ) : w ∣ bucketOf w t := dvd_mul_left w (t / w)

lemma bucketOf_self {w b : ℕ} (hb : w ∣ b) : bucketOf w b = b :=
  Nat.div_mul_cancel hb

lemma bucketOf_le (w t : ℕ) : bucketOf w t ≤ t := Nat.div_mul_le_self t w

lemma lt_bucketOf_add {w : ℕ} (hw : 0 < w) (t : ℕ) : t < bucketOf w t + w :=
  calc t = w * (t / w) + t % w := (Nat.div_add_mod t w).symm
    _ < w * (t / w) + w := Nat.add_lt_add_left (Nat.mod_lt t hw) _
    _ = bucketOf w t + w := by rw [bucketOf, mul_comm]

lemma bucketOf_mono (w : ℕ) {t t' : ℕ} (h : t ≤ t') :
    bucketOf w t ≤ bucketOf w t' :=
  Nat.mul_le_mul_right w (Nat.div_le_div_right h)

/-- for a bucket-aligned `b`, instant `t` falls in the bucket starting at
`b` precisely when `t` lies in the half-open range `[b, b + w)`. -/
lemma bucketOf_eq_iff {w b : ℕ} (hw : 0 < w) (hb : w ∣ b) (t : ℕ) :
    bucketOf w t = b ↔ b ≤ t ∧ t < b + w := by
  constructor
  · rintro rfl
    exact ⟨bucketOf_le w t, lt_bucketOf_add hw t⟩
  · rintro ⟨h1, h2⟩
    rcases hb with ⟨k, rfl⟩
    have hkw : k * w ≤ t := by rw [mul_comm]; exact h1
    have hk2 : t < (k + 1) * w := by
      have : (k + 1) * w = w * k + w := by ring
      omega
    rw [bucketOf, Nat.div_eq_of_lt_le hkw hk2, mul_comm]

lemma tsMin_spec {rows : List Row} (hne : rows ≠ []) :
    tsMin rows ∈ rows.map Prod.fst ∧ ∀ r ∈ rows, tsMin rows ≤ r.1 := by
  rcases h : (rows.map Prod.fst).min? with _ | a
  · rw [List.min?_eq_none_iff, List.map_eq_nil_iff] at h
    exact absurd h hne
  · have h2 := h
    rw [List.min?_eq_some_iff'] at h2
    refine ⟨by simpa [tsMin, h] using h2.1, fun r hr => ?_⟩
    simpa [tsMin, h] using h2.2 r.1 (List.mem_map_of_mem Prod.fst hr)

lemma tsMax_spec {rows : List Row} (hne : rows ≠ []) :
    tsMax rows ∈ rows.map Prod.fst ∧ ∀ r ∈ rows, r.1 ≤ tsMax rows := by
  rcases h : (rows.map Prod.fst).max? with _ | a
  · rw [List.max?_eq_none_iff, List.map_eq_nil_iff] at h
    exact absurd h hne
  · have h2 := h
    rw [List.max?_eq_some_iff'] at h2
    refine ⟨by simpa [tsMax, h] using h2.1, fun r hr => ?_⟩
    simpa [tsMax, h] using h2.2 r.1 (List.mem_map_of_mem Prod.fst hr)

lemma tsMin_le_tsMax {rows : List Row} (hne : rows ≠ []) :
    tsMin rows ≤ tsMax rows := by
  rcases List.mem_map.mp (tsMax_spec hne).1 with ⟨r, hr, hEq⟩
  rw [← hEq]
  exact (tsMin_spec hne).2 r hr

lemma bucketStarts_eq {w : ℕ} {rows : List Row} (hne : rows ≠ []) :
    bucketStarts w rows
      = (List.range ((bucketOf w (tsMax rows) - bucketOf w (tsMin rows)) / w + 1)).map
          (fun i => bucketOf w (tsMin rows) + i * w) := by
  cases rows with
  | nil => exact absurd rfl hne
  | cons r rs => rfl

lemma filterMap_ite_filter {α β : Type} (p : α → Prop) [DecidablePred p]
    (f : α → Option β) (l : List α) :
    l.filterMap (fun a => if p a then f a else none)
      = (l.filter (fun a => decide (p a))).filterMap f := by
  induction l with
  | nil => rfl
  | cons a t ih =>
    by_cases hp : p a
    · rw [List.filter_cons_of_pos (by simpa using hp), List.filterMap_cons,
        List.filterMap_cons, if_pos hp, ih]
    · rw [List.filter_cons_of_neg (by simpa using hp), List.filterMap_cons,
        if_neg hp, ih]

/-- membership in the emitted bucket list: exactly the bucket-aligned
instants between the first record's bucket and the last record's bucket. -/
lemma mem_bucketStarts {w : ℕ} (hw : 0 < w) {rows : List Row}
    (hne : rows ≠ []) (b : ℕ) :
    b ∈ bucketStarts w rows ↔
      w ∣ b ∧ bucketOf w (tsMin rows) ≤ b ∧ b ≤ bucketOf w (tsMax rows) := by
  rw [bucketStarts_eq hne]
  set b0 := bucketOf w (tsMin rows) with hb0
  set b1 := bucketOf w (tsMax rows) with hb1
  have hb01 : b0 ≤ b1 := bucketOf_mono w (tsMin_le_tsMax hne)
  simp only [List.mem_map, List.mem_range]
  constructor
  · rintro ⟨i, hi, rfl⟩
    refine ⟨dvd_add (bucketOf_dvd w _) (dvd_mul_left w i), Nat.le_add_right _ _, ?_⟩
    have : i * w ≤ (b1 - b0) / w * w := Nat.mul_le_mul_right w (by omega)
    have h2 : (b1 - b0) / w * w ≤ b1 - b0 := Nat.div_mul_le_self _ _
    omega
  · rintro ⟨hdvd, h1, h2⟩
    have hsub : w ∣ b - b0 := Nat.dvd_sub' hdvd (bucketOf_dvd w _)
    refine ⟨(b - b0) / w, ?_, ?_⟩
    · have := Nat.div_le_div_right (c := w) (Nat.sub_le_sub_right h2 b0)
      omega
    · rw [Nat.div_mul_cancel hsub]
      omega

lemma resample_map_fst (w n : ℕ) (rows : List Row) :
    (resample w n rows).map Prod.fst = bucketStarts w rows := by
  rw [resample, List.map_map]
  rw [show (Prod.fst ∘ fun b => (b, meansRow w b n rows)) = id from rfl]
  exact List.map_id _

/-- C1: every entry the resampler outputs carries, for each zone
independently, the NaN-skipping arithmetic mean of exactly those input
values whose timestamps fall in the half-open range
`[bucketStart, bucketStart + width)`; when no value is present there the
entry holds the missing marker, never `0`. -/
theorem resample_bucket_mean (rule : ResampleRule) (n : ℕ) (rows : List Row)
    (entry : Row) (hentry : entry ∈ resample rule.width n rows)
    (j : ℕ) (hj : j < n) :
    entry.2.getD j none
      = optMean ((rows.filter (fun r =>
            decide (entry.1 ≤ r.1) && decide (r.1 < entry.1 + rule.width))).filterMap
          (fun r => r.2.getD j none)) ∧
    ((rows.filter (fun r =>
          decide (entry.1 ≤ r.1) && decide (r.1 < entry.1 + rule.width))).filterMap
        (fun r => r.2.getD j none) = [] → entry.2.getD j none = none) := by
  have hw := width_pos rule
  rw [resample] at hentry
  rcases List.mem_map.mp hentry with ⟨b, hb, rfl⟩
  have hne : rows ≠ [] := by
    rintro rfl
    simp [bucketStarts] at hb
  have hdvd : rule.width ∣ b := ((mem_bucketStarts hw hne b).mp hb).1
  have hval : (b, meansRow rule.width b n rows).2.getD j none
      = optMean (presentIn rule.width b j rows) := by
    rw [meansRow]
    exact getD_map_range _ _ hj
  have hpres : presentIn rule.width b j rows
      = ((rows.filter (fun r =>
            decide (b ≤ r.1) && decide (r.1 < b + rule.width))).filterMap
          (fun r => r.2.getD j none)) := by
    rw [presentIn, filterMap_ite_filter]
    congr 1
    apply List.filter_congr
    intro r _
    rw [decide_eq_decide.mpr (bucketOf_eq_iff hw hdvd r.1),
      Bool.decide_and]
  refine ⟨by rw [hval, hpres], fun hnil => ?_⟩
  rw [hval, hpres, hnil, optMean, if_pos rfl]

/-- C1 witness: in the hour-resampled two-record series, the bucket at
minute 60 contains no records, and its zone value is the mean of the
empty collection, i.e. missing. -/
theorem resample_bucket_mean_witness :
    ((60 : ℕ), ([none] : List Value)).2.getD 0 none
      = optMean ((([(0, [some 100]), (120, [some 120])] : List Row).filter
          (fun r => decide (60 ≤ r.1) && decide (r.1 < 60 + ResampleRule.h1.width))).filterMap
          (fun r => r.2.getD 0 none)) :=
  (resample_bucket_mean .h1 1 [(0, [some 100]), (120, [some 120])]
    (60, [none])
    (by norm_num [resample, bucketStarts, tsMin, tsMax, bucketOf, meansRow,
      presentIn, optMean, ResampleRule.width, List.range_succ,
      List.filterMap_cons])
    0 (by omega)).1

/-- C3 counterexample: resampling the two records at minutes 0 and 120 at
the one-hour rule emits the bucket starting at minute 60 even though no
record falls in its range `[60, 120)` — the output has one entry per
bucket of the span, not one per non-empty bucket only. -/
theorem resample_emits_empty_bucket :
    resample ResampleRule.h1.width 1 [(0, [some 100]), (120, [some 120])]
      = [(0, [some 100]), (60, [none]), (120, [some 120])] ∧
    filterWindow 60 119 [(0, [some 100]), (120, [some 120])] = [] := by
  constructor
  · norm_num [resample, bucketStarts, tsMin, tsMax, bucketOf, meansRow,
      presentIn, optMean, ResampleRule.width, List.range_succ,
      List.filterMap_cons]
  · decide

/-- C3 amended: the resampler's output has exactly one entry per
bucket-aligned instant between the first record's bucket and the last
record's bucket — empty buckets inside that span included, carrying
missing values — in strictly ascending bucket order; only an empty input
yields an empty output. -/
theorem resample_bucket_span (rule : ResampleRule) (n : ℕ) (rows : List Row)
    (hne : rows ≠ []) :
    List.Chain' (· < ·) ((resample rule.width n rows).map Prod.fst) ∧
    (∀ b, b ∈ (resample rule.width n rows).map Prod.fst ↔
      rule.width ∣ b ∧ bucketOf rule.width (tsMin rows) ≤ b ∧
        b ≤ bucketOf rule.width (tsMax rows)) ∧
    resample rule.width n ([] : List Row) = [] := by
  have hw := width_pos rule
  refine ⟨?_, ?_, rfl⟩
  · rw [resample_map_fst, bucketStarts_eq hne]
    rw [List.chain'_map]
    refine (List.chain'_range_succ _ _).mpr ?_
    intro m _
    exact Nat.add_lt_add_left
      (mul_lt_mul_of_pos_right (Nat.lt_succ_self m) hw) _
  · intro b
    rw [resample_map_fst]
    exact mem_bucketStarts hw hne b

/-- C3 amended witness: the three buckets of the counterexample input are
in strictly ascending order. -/
theorem resample_bucket_span_witness :
    List.Chain' (· < ·)
      ((resample ResampleRule.h1.width 1
        [((0 : ℕ), [some (100 : ℚ)]), (120, [some 120])]).map Prod.fst) :=
  (resample_bucket_span .h1 1 [(0, [some 100]), (120, [some 120])]
    (by simp)).1

/-! ### Idempotence of resampling -/

lemma optMean_single (q : ℚ) : optMean [q] = some q := by
  rw [optMean, if_neg (by simp)]
  simp

lemma optMean_toList (v : Value) : optMean v.toList = v := by
  cases v with
  | none => rfl
  | some q => exact optMean_single q

lemma filterMap_eq_of_nodup {γ : Type} {l : List ℕ} (hnd : l.Nodup) {b : ℕ}
    (hb : b ∈ l) (g : ℕ → Option γ) :
    l.filterMap (fun x => if x = b then g x else none) = (g b).toList := by
  induction l with
  | nil => cases hb
  | cons a t ih =>
    rw [List.nodup_cons] at hnd
    by_cases hab : a = b
    · subst hab
      have ht : t.filterMap (fun x => if x = a then g x else none) = [] := by
        rw [List.filterMap_eq_nil_iff]
        intro x hx
        rw [if_neg]
        intro hxa
        exact hnd.1 (hxa ▸ hx)
      cases hg : g a with
      | none => simp [List.filterMap_cons, hg, ht]
      | some y => simp [List.filterMap_cons, hg, ht]
    · have hbt : b ∈ t := by
        rcases List.mem_cons.mp hb with h | h
        · exact absurd h.symm hab
        · exact h
      simp only [List.filterMap_cons, if_neg hab]
      exact ih hnd.2 hbt

/-- C8: resampling is idempotent at equal granularity — feeding the
resampler's output (bucket starts as timestamps) back through the
resampler at the same rule reproduces it exactly, which in this rational
model is even stronger than reproduction up to floating-point tolerance. -/
theorem resample_idempotent (rule : ResampleRule) (n : ℕ) (rows : List Row) :
    resample rule.width n (resample rule.width n rows)
      = resample rule.width n rows := by
  have hw := width_pos rule
  set w := rule.width with hwdef
  rcases eq_or_ne rows [] with rfl | hne
  · rfl
  set b0 := bucketOf w (tsMin rows) with hb0
  set b1 := bucketOf w (tsMax rows) with hb1
  have hb01 : b0 ≤ b1 := bucketOf_mono w (tsMin_le_tsMax hne)
  set k := (b1 - b0) / w with hk
  have hstarts : bucketStarts w rows
      = (List.range (k + 1)).map (fun i => b0 + i * w) := bucketStarts_eq hne
  set out := resample w n rows with hout
  have houtne : out ≠ [] := by
    rw [hout, resample, hstarts]
    simp
  have hmapfst : out.map Prod.fst
      = (List.range (k + 1)).map (fun i => b0 + i * w) := by
    rw [hout, resample_map_fst, hstarts]
  have hkw : k * w = b1 - b0 :=
    Nat.div_mul_cancel (Nat.dvd_sub' (bucketOf_dvd w _) (bucketOf_dvd w _))
  have hmin : tsMin out = b0 := by
    have hsome : ((List.range (k + 1)).map (fun i => b0 + i * w)).min?
        = some b0 := by
      refine List.min?_eq_some_iff'.mpr
        ⟨List.mem_map.mpr ⟨0, List.mem_range.mpr (Nat.succ_pos k), by simp⟩, ?_⟩
      intro c hc
      rcases List.mem_map.mp hc with ⟨i, _, rfl⟩
      exact Nat.le_add_right b0 (i * w)
    rw [tsMin, hmapfst, hsome]
    rfl
  have hmax : tsMax out = b1 := by
    have hsome : ((List.range (k + 1)).map (fun i => b0 + i * w)).max?
        = some (b0 + k * w) := by
      refine List.max?_eq_some_iff'.mpr
        ⟨List.mem_map.mpr ⟨k, List.mem_range.mpr (Nat.lt_succ_self k), rfl⟩, ?_⟩
      intro c hc
      rcases List.mem_map.mp hc with ⟨i, hi, rfl⟩
      rw [List.mem_range] at hi
      have hiw : i * w ≤ k * w := Nat.mul_le_mul_right w (by omega)
      omega
    rw [tsMax, hmapfst, hsome]
    show b0 + k * w = b1
    omega
  have hstarts2 : bucketStarts w out = bucketStarts w rows := by
    rw [bucketStarts_eq houtne, hstarts, hmin, hmax,
      bucketOf_self (bucketOf_dvd w (tsMin rows)),
      bucketOf_self (bucketOf_dvd w (tsMax rows))]
  have hnodup : (bucketStarts w rows).Nodup := by
    rw [hstarts]
    refine List.Nodup.map ?_ (List.nodup_range _)
    intro i j hij
    have hij2 : b0 + i * w = b0 + j * w := hij
    exact Nat.eq_of_mul_eq_mul_right hw (Nat.add_left_cancel hij2)
  have hpoint : ∀ b ∈ bucketStarts w rows,
      meansRow w b n out = meansRow w b n rows := by
    intro b hb
    rw [meansRow, meansRow]
    apply List.map_congr_left
    intro j hj
    rw [List.mem_range] at hj
    have h1 : presentIn w b j out = ((meansRow w b n rows).getD j none).toList := by
      rw [hout, resample, presentIn, List.filterMap_map]
      rw [List.filterMap_congr
        (g := fun b' => if b' = b then (meansRow w b' n rows).getD j none else none) ?_]
      · exact filterMap_eq_of_nodup hnodup hb _
      · intro b' hb'
        have hself : bucketOf w b' = b' :=
          bucketOf_self ((mem_bucketStarts hw hne b').mp hb').1
        simp only [Function.comp, hself]
    rw [← getD_map_range (fun j => optMean (presentIn w b j rows)) none hj,
      ← meansRow, h1, optMean_toList]
  calc resample w n out
      = (bucketStarts w out).map (fun b => (b, meansRow w b n out)) := rfl
    _ = (bucketStarts w rows).map (fun b => (b, meansRow w b n out)) := by
        rw [hstarts2]
    _ = (bucketStarts w rows).map (fun b => (b, meansRow w b n rows)) :=
        List.map_congr_left (fun b hb => by rw [hpoint b hb])
    _ = resample w n rows := rfl

/-! ### Relation between the KPI and grouping target policies -/

/-- C7 counterexample: with zones `{east, west}` (no system total), a
two-zone selection puts both policies in their priority-2 branch, yet the
KPI target is the element-wise sum `[3]` while the grouping target is the
first selected zone's series `[1]` — the policies do not pick the same
series at priority 2. -/
theorem kpi_group_policy_counterexample :
    "pjm_rto" ∉ (["east", "west"] : List String) ∧
    (["east", "west"] : List String) ≠ [] ∧
    ycolFor ["east", "west"] ["east", "west"] = some "east" ∧
    series_for_kpis ["east", "west"] ["east", "west"]
      [(0, [some 1, some 2])] = [some 3] ∧
    colSeries ["east", "west"] "east" [(0, [some 1, some 2])] = [some 1] ∧
    series_for_kpis ["east", "west"] ["east", "west"] [(0, [some 1, some 2])]
      ≠ colSeries ["east", "west"] "east" [(0, [some 1, some 2])] := by
  have h4 : series_for_kpis ["east", "west"] ["east", "west"]
      [(0, [some 1, some 2])] = [some 3] := by
    rw [series_for_kpis, if_neg (by decide), if_pos (by decide)]
    norm_num [sumSeries, rowSumOver, colVal, List.indexOf_cons,
      (by decide : (("east" == "west") : Bool) = false)]
  have h5 : colSeries ["east", "west"] "east" [(0, [some 1, some 2])]
      = [some 1] := by decide
  refine ⟨by decide, by decide, by decide, h4, h5, ?_⟩
  rw [h4, h5]
  intro h
  have : (3 : ℚ) = 1 := by simpa using h
  norm_num at this

/-- C7 amended: the KPI and grouping target policies agree at priority 1
(both take the `pjm_rto` series whenever that zone exists) and branch on
the same conditions at priorities 2 and 3, but already at priority 2 they
produce different series in general — the KPI target is the element-wise
sum over the selection while the grouping target is the first selected
zone, the two coinciding when the selection is a single zone with no
missing values — and at priority 3 KPIs sum all zones while grouping
takes the first zone in dataset order. -/
theorem kpi_group_policy_relation (cols sel : List String) (rows : List Row) :
    ("pjm_rto" ∈ cols →
      series_for_kpis cols sel rows = colSeries cols "pjm_rto" rows ∧
      ycolFor cols sel = some "pjm_rto") ∧
    (∀ z zs, "pjm_rto" ∉ cols → sel = z :: zs →
      series_for_kpis cols sel rows = sumSeries cols sel rows ∧
      ycolFor cols sel = some z) ∧
    ("pjm_rto" ∉ cols → sel = [] →
      series_for_kpis cols sel rows = sumSeries cols cols rows ∧
      ycolFor cols sel = cols.head?) ∧
    (∀ z, "pjm_rto" ∉ cols → sel = [z] →
      (∀ r ∈ rows, colVal cols z r ≠ none) →
      series_for_kpis cols sel rows = colSeries cols z rows) := by
  refine ⟨?_, ?_, ?_, ?_⟩
  · intro h
    exact ⟨by rw [series_for_kpis, if_pos h], by rw [ycolFor.eq_def, if_pos h]⟩
  · intro z zs h hsel
    subst hsel
    exact ⟨by rw [series_for_kpis, if_neg h, if_pos (by simp)],
      by rw [ycolFor.eq_def, if_neg h]⟩
  · intro h hsel
    subst hsel
    exact ⟨by rw [series_for_kpis, if_neg h, if_neg (by simp)],
      by rw [ycolFor.eq_def, if_neg h]⟩
  · intro z h hsel hpresent
    subst hsel
    rw [series_for_kpis, if_neg h, if_pos (by simp), sumSeries, colSeries]
    apply List.map_congr_left
    intro r hr
    rcases hv : colVal cols z r with _ | q
    · exact absurd hv (hpresent r hr)
    · simp [rowSumOver, hv]

/-- C7 witness: with the system total present, both policies target
`pjm_rto`. -/
theorem kpi_group_policy_relation_witness :
    ycolFor ["pjm_rto"] [] = some "pjm_rto" :=
  ((kpi_group_policy_relation ["pjm_rto"] [] []).1 (by decide)).2

/-! ### Timestamp resolution -/

/-- case-insensitive substring test — this is the predicate the design
document describes ("by substring match ... case-insensitive"), stated
here only to compare it against the code's case-sensitive test. -/
def strContainsCI (hay needle : String) : Bool :=
  subOccurs (hay.toList.map Char.toLower) (needle.toList.map Char.toLower)

/-- the documented (case-insensitive) version of the timestamp-name test. -/
def nameMatchesCI (c : String) : Bool :=
  strContainsCI c "interval" && strContainsCI c "start" && strContainsCI c "local"

lemma find?_eq_head?_filter {α : Type} (p : α → Bool) (l : List α) :
    l.find? p = (l.filter p).head? := by
  induction l with
  | nil => rfl
  | cons a t ih =>
    by_cases h : p a = true
    · rw [List.find?_cons_of_pos _ h, List.filter_cons_of_pos h]
      rfl
    · rw [List.find?_cons_of_neg _ (by simpa using h),
        List.filter_cons_of_neg (by simpa using h), ih]

/-- C6 counterexample: the column name `INTERVAL_START_LOCAL` contains
all three indicator substrings when matched case-insensitively, but the
code's test (Python's case-sensitive `in`) rejects it: on a table whose
first column bears that name (with unparseable values) and whose second
column is `interval_start_local`, the resolver selects the second column,
not the first as the claim's case-insensitive rule dictates. -/
theorem timestampResolver_counterexample :
    nameMatchesCI "INTERVAL_START_LOCAL" = true ∧
    nameMatches "INTERVAL_START_LOCAL" = false ∧
    chosenTimeCol
        [("INTERVAL_START_LOCAL", [Cell.text "n/a"]),
          ("interval_start_local", [Cell.time 0])]
      = some "interval_start_local" := by
  refine ⟨by decide, by decide, by decide⟩

/-- C6 amended: the resolver selects, in priority order, (1) the first
field whose name contains "interval", "start" and "local" as substrings
matched case-SENSITIVELY, (2) otherwise the first field all of whose
values parse as a date/time, (3) otherwise the first field in column
order; the loaded records are then sorted ascending by the parsed
timestamp. -/
theorem timestampResolver_spec (tbl : Table) :
    (∀ c, (tbl.map Prod.fst).find? nameMatches = some c →
      chosenTimeCol tbl = some c) ∧
    ((tbl.map Prod.fst).all (fun c => !nameMatches c) →
      ∀ col, tbl.find? colParses = some col →
        chosenTimeCol tbl = some col.1) ∧
    ((tbl.map Prod.fst).all (fun c => !nameMatches c) →
      tbl.all (fun c => !colParses c) →
      chosenTimeCol tbl = (tbl.map Prod.fst).head?) ∧
    (∀ recs, load_data tbl = some recs →
      List.Chain' (fun a b : ℤ × ℕ => a.1 ≤ b.1) recs) := by
  refine ⟨?_, ?_, ?_, ?_⟩
  · intro c hc
    rw [find?_eq_head?_filter] at hc
    cases hby : (tbl.map Prod.fst).filter nameMatches with
    | nil => rw [hby] at hc; cases hc
    | cons a t =>
      rw [hby] at hc
      have hac : a = c := by simpa using hc
      have hcand : timeColCandidates tbl = a :: t := by
        rw [timeColCandidates, hby, if_neg (by simp)]
      rw [chosenTimeCol.eq_def, hcand, hac]
  · intro hall col hfind
    have hby : (tbl.map Prod.fst).filter nameMatches = [] := by
      rw [List.filter_eq_nil_iff]
      intro x hx
      simpa using List.all_eq_true.mp hall x hx
    rw [find?_eq_head?_filter] at hfind
    cases hfc : tbl.filter colParses with
    | nil => rw [hfc] at hfind; cases hfind
    | cons a t =>
      rw [hfc] at hfind
      have hac : a = col := by simpa using hfind
      have hcand : timeColCandidates tbl = col.1 :: t.map Prod.fst := by
        rw [timeColCandidates, hby, if_pos (by decide), hfc, hac]
        rfl
      rw [chosenTimeCol.eq_def, hcand]
  · intro hall1 hall2
    have hby : (tbl.map Prod.fst).filter nameMatches = [] := by
      rw [List.filter_eq_nil_iff]
      intro x hx
      simpa using List.all_eq_true.mp hall1 x hx
    have hfc : tbl.filter colParses = [] := by
      rw [List.filter_eq_nil_iff]
      intro x hx
      simpa using List.all_eq_true.mp hall2 x hx
    have hcand : timeColCandidates tbl = [] := by
      rw [timeColCandidates, hby, if_pos (by decide), hfc]
      rfl
    rw [chosenTimeCol.eq_def, hcand]
  · intro recs h
    rw [load_data] at h
    rcases Option.map_eq_some'.mp h with ⟨recs0, _, hEq⟩
    have hp := @List.sorted_mergeSort (ℤ × ℕ)
      (fun a b => decide (a.1 ≤ b.1))
      (fun a b c hab hbc =>
        decide_eq_true (le_trans (of_decide_eq_true hab) (of_decide_eq_true hbc)))
      (fun a b => by rcases le_total a.1 b.1 with h | h <;> simp [h])
      recs0
    rw [← hEq]
    exact (hp.imp (fun h => of_decide_eq_true h)).chain'

/-- C6 witness: on a table whose second column carries the indicator name,
priority 1 selects it; and loading a three-row table with shuffled times
yields records sorted ascending by timestamp. -/
theorem timestampResolver_spec_witness :
    chosenTimeCol [("load", [Cell.num 5]), ("interval_start_local", [Cell.time 0])]
      = some "interval_start_local" :=
  (timestampResolver_spec
    [("load", [Cell.num 5]), ("interval_start_local", [Cell.time 0])]).1
    "interval_start_local" (by decide)

end PJM
